/-
Verification of the AFQ-Insight `transform` module.

This file shallowly embeds `afqinsight/transform.py`:
  * label sets and the group algebra (`select_group`, `select_groups`,
    `remove_group`, `remove_groups`, `shuffle_group`),
  * `multicol2sets`,
  * `beta_hat_by_groups`,
  * the `AFQFeatureTransformer.transform` pipeline (pivot by node,
    interpolation under two policies, stack/unstack into a feature
    matrix with cross-product columns, median imputation, group
    membership derivation and the optional bias column).

Missing float values (NaN) are modelled as `Option ℚ`; column label
sets are `Finset Label` where a `Label` is a string or an integer
(node id).  Matrices are row-major lists of rows; a numpy boolean
column mask `x[:, mask]` is `filterByMask` applied to every row.
-/
import Mathlib

namespace AFQ

/-- A label attached to a feature column: a string (metric / tract) or an
integer (node id), as stored in the python sets produced by
`multicol2sets`. -/
inductive Label where
  | str : String → Label
  | num : Int → Label
deriving DecidableEq

/-- `x[mask]` for a 1-D numpy array: keep the entries whose mask bit is
true, in order. -/
def filterByMask : List Bool → List α → List α
  | [], _ => []
  | _, [] => []
  | b :: bs, a :: as =>
    if b then a :: filterByMask bs as else filterByMask bs as

/-- A numpy array of rank 1 or 2, the only ranks the group operations
accept (any other rank raises `ValueError`). -/
inductive NDArr where
  | one : List ℚ → NDArr
  | two : List (List ℚ) → NDArr
deriving DecidableEq

/-- Apply a boolean column mask to a rank-1 or rank-2 array:
`x[mask]` resp. `x[:, mask]`. -/
def NDArr.colMask (x : NDArr) (mask : List Bool) : NDArr :=
  match x with
  | .one v => .one (filterByMask mask v)
  | .two rows => .two (rows.map (filterByMask mask))

/-- Membership test `set(label) <= label_set` used by every group
operation: the column matches when each component of the label tuple
appears in the column's label set. -/
def labelMatch (label : List Label) (s : Finset Label) : Bool :=
  label.all (fun a => a ∈ s)

/-- `remove_group(x, remove_label, label_sets)`:
`mask = np.logical_not(set(remove_label) <= label_sets)` then `x[:, mask]`. -/
def remove_group (x : NDArr) (remove_label : List Label)
    (label_sets : List (Finset Label)) : NDArr :=
  let mask := label_sets.map (fun s => ! labelMatch remove_label s)
  x.colMask mask

/-- `remove_groups(x, remove_labels, label_sets)`:
`mask = zeros`; for each label, `mask |= np.logical_not(set(label) <= label_sets)`;
then `x[:, mask]`. -/
def remove_groups (x : NDArr) (remove_labels : List (List Label))
    (label_sets : List (Finset Label)) : NDArr :=
  let mask := remove_labels.foldl
    (fun acc label =>
      (acc.zip (label_sets.map (fun s => ! labelMatch label s))).map
        (fun p => p.1 || p.2))
    (label_sets.map (fun _ => false))
  x.colMask mask

/-- `select_group(x, select_label, label_sets)`:
`mask = set(select_label) <= label_sets` then `x[:, mask]`. -/
def select_group (x : NDArr) (select_label : List Label)
    (label_sets : List (Finset Label)) : NDArr :=
  let mask := label_sets.map (fun s => labelMatch select_label s)
  x.colMask mask

/-- `select_groups(x, select_labels, label_sets)`:
`mask = zeros`; for each label, `mask |= (set(label) <= label_sets)`;
then `x[:, mask]`. -/
def select_groups (x : NDArr) (select_labels : List (List Label))
    (label_sets : List (Finset Label)) : NDArr :=
  let mask := select_labels.foldl
    (fun acc label =>
      (acc.zip (label_sets.map (fun s => labelMatch label s))).map
        (fun p => p.1 || p.2))
    (label_sets.map (fun _ => false))
  x.colMask mask

/-- The `numpy.random` module state machine, abstracted: `seed` replaces the
global state by a state determined by the integer seed, `shuffle` permutes a
flat array using (and advancing) the state.  `shuffle_group` threads the
process-wide state explicitly. -/
structure NpRandom (σ : Type) where
  seed : Nat → σ
  shuffle : σ → List ℚ → List ℚ × σ

/-- Row-level part of `out[:, mask] = section`: replace the entries of `row`
at the true positions of `mask` by the next values of `vals`, in order. -/
def setMasked : List ℚ → List Bool → List ℚ → List ℚ
  | [], _, _ => []
  | r, [], _ => r
  | a :: as, b :: bs, vals =>
    if b then vals.headD a :: setMasked as bs vals.tail
    else a :: setMasked as bs vals

/-- `out[:, mask] = section.reshape(section_shape)`: hand each row its chunk
of the flat (row-major) section. -/
def reinsertRows (mask : List Bool) : List (List ℚ) → List ℚ → List (List ℚ)
  | [], _ => []
  | r :: rs, flat =>
    let k := (filterByMask mask r).length
    setMasked r mask (flat.take k) :: reinsertRows mask rs (flat.drop k)

/-- `shuffle_group(x, label, label_sets, random_seed)`: copy `x`, take the
sub-matrix of columns matching `label`, flatten it row-major, shuffle the
flat pool with `np.random.shuffle`, and write it back.  When a seed is
given, the global state is saved (`np.random.get_state`), the seed is set,
and the saved state is restored after the shuffle; otherwise the ambient
state is used and advanced.  The ambient `np.random` state `g` is passed and
returned explicitly. -/
def shuffle_group (R : NpRandom σ) (x : List (List ℚ)) (label : List Label)
    (label_sets : List (Finset Label)) (random_seed : Option Nat) (g : σ) :
    List (List ℚ) × σ :=
  let mask := label_sets.map (fun s => labelMatch label s)
  let sect := (x.map (filterByMask mask)).flatten
  match random_seed with
  | some k =>
      let saved := g
      let shuffled := (R.shuffle (R.seed k) sect).1
      (reinsertRows mask x shuffled, saved)
  | none =>
      let res := R.shuffle g sect
      (reinsertRows mask x res.1, res.2)

/-- A feature-matrix column key `(metric, tractID, nodeID)`, one level of
the pandas MultiIndex per component. -/
abbrev ColKey := String × String × Int

/-- Lexicographic code-point comparison of char lists: `as < bs`.  This is
the string order python (and numpy / pandas level sorting) uses. -/
def charListLt : List Char → List Char → Bool
  | _, [] => false
  | [], _ :: _ => true
  | a :: as, b :: bs =>
    if a.toNat < b.toNat then true
    else if b.toNat < a.toNat then false
    else charListLt as bs

/-- `a <= b` on strings, by code points. -/
def strLe (a b : String) : Bool :=
  ! charListLt b.data a.data

/-- python `str.replace` on char lists: rewrite every non-overlapping
occurrence of `pat` by `rep`, scanning left to right, never rescanning a
replacement.  The fuel argument is instantiated with the string length;
every step consumes at least one character, so the fuel never runs out. -/
def replaceFuel (pat rep : List Char) : Nat → List Char → List Char
  | 0, s => s
  | _ + 1, [] => []
  | n + 1, a :: as =>
    if (! pat.isEmpty) && pat.isPrefixOf (a :: as) then
      rep ++ replaceFuel pat rep n ((a :: as).drop pat.length)
    else a :: replaceFuel pat rep n as

/-- python `s.replace(pat, rep)`. -/
def strReplace (s pat rep : String) : String :=
  ⟨replaceFuel pat.data rep.data s.data.length s.data⟩

/-- `tract.replace("Left ", "").replace("Right ", "")` — the symmetrized
(bilateral) tract name. -/
def symmetrize (t : String) : String :=
  strReplace (strReplace t "Left " "") "Right " ""

/-- The python set built from one MultiIndex tuple, with the symmetrized
tract name appended when `tract_symmetry` is on. -/
def keyLabelSet (tract_symmetry : Bool) (k : ColKey) : Finset Label :=
  let base : Finset Label := {Label.str k.1, Label.str k.2.1, Label.num k.2.2}
  if tract_symmetry then insert (Label.str (symmetrize k.2.1)) base else base

/-- `multicol2sets(columns, tract_symmetry)`: one label set per column. -/
def multicol2sets (columns : List ColKey) (tract_symmetry : Bool) :
    List (Finset Label) :=
  columns.map (keyLabelSet tract_symmetry)

/-- The distinct values of a string-valued MultiIndex level, sorted
ascending (`columns.levels[i]`). -/
def sortedLevel (l : List String) : List String :=
  l.dedup.insertionSort (fun a b => strLe a b = true)

/-- `columns.levels` for the metric level. -/
def metricLevel (cols : List ColKey) : List String :=
  sortedLevel (cols.map (·.1))

/-- `columns.levels` for the tractID level. -/
def tractLevel (cols : List ColKey) : List String :=
  sortedLevel (cols.map (·.2.1))

/-- `columns.levels` for the nodeID level. -/
def nodeLevel (cols : List ColKey) : List Int :=
  (cols.map (·.2.2)).dedup.insertionSort (· ≤ ·)

/-- Project a rank-1 array back to a list (group ops applied to a 1-D
`beta_hat` always stay rank-1). -/
def NDArr.asVec : NDArr → List ℚ
  | .one v => v
  | .two _ => []

/-- `beta_hat_by_groups(beta_hat, columns, drop_zeros)`: nested ordered
dict tract → metric → subvector, tracts and metrics iterated in level
(sorted) order, an entry kept when `not drop_zeros or any(x != 0)`. -/
def beta_hat_by_groups (beta_hat : List ℚ) (columns : List ColKey)
    (drop_zeros : Bool) : List (String × List (String × List ℚ)) :=
  let label_sets := multicol2sets columns false
  (tractLevel columns).filterMap (fun tract =>
    let all_metrics := (select_group (.one beta_hat) [Label.str tract] label_sets).asVec
    if !drop_zeros || all_metrics.any (fun q => decide (q ≠ 0)) then
      some (tract, (metricLevel columns).filterMap (fun metric =>
        let x := (select_group (.one beta_hat) [Label.str tract, Label.str metric]
          label_sets).asVec
        if !drop_zeros || x.any (fun q => decide (q ≠ 0)) then some (metric, x)
        else none))
    else none)

/-- The set of column indices a boolean mask keeps. -/
def keptIndices (mask : List Bool) : Finset ℕ :=
  (Finset.range mask.length).filter (fun j => mask.getD j false = true)

/-! ### The `AFQFeatureTransformer.transform` pipeline

The input AFQ dataframe, after `melt`, is a long-form table of records
`(subjectID, tractID, nodeID, metric, value)` with explicit missing values
(`value = none` models NaN). -/

/-- One row of the melted AFQ dataframe. -/
structure Record where
  subjectID : String
  tractID : String
  nodeID : Int
  metric : String
  value : Option ℚ
deriving DecidableEq

/-- The melted long-form AFQ dataframe. -/
abbrev Table := List Record

/-- The sorted distinct nodeIDs — the index of the `by_node_idx` pivot and
the nodeID level of the feature columns. -/
def tableNodes (tbl : Table) : List Int :=
  (tbl.map (·.nodeID)).dedup.insertionSort (· ≤ ·)

/-- The sorted distinct metrics — the metric level. -/
def tableMetrics (tbl : Table) : List String :=
  sortedLevel (tbl.map (·.metric))

/-- The sorted distinct tractIDs — the tractID level. -/
def tableTracts (tbl : Table) : List String :=
  sortedLevel (tbl.map (·.tractID))

/-- The sorted distinct subjectIDs — the subjectID level. -/
def tableSubjects (tbl : Table) : List String :=
  sortedLevel (tbl.map (·.subjectID))

/-- Whether the pivot column `(metric, tractID, subjectID)` survives
`pivot_table`'s `dropna=True`: it has at least one non-NaN value. -/
def hasValid (tbl : Table) (m t s : String) : Bool :=
  tbl.any (fun r =>
    r.metric == m && r.tractID == t && r.subjectID == s && r.value.isSome)

/-- The pivot cell at row `n`, column `(m, t, s)`: the value of the (unique,
by the data-model invariant) record with that key, NaN when the record is
absent or its value is missing. -/
def cellValue (tbl : Table) (m t s : String) (n : Int) : Option ℚ :=
  match tbl.find? (fun r =>
      r.metric == m && r.tractID == t && r.subjectID == s && r.nodeID == n) with
  | some r => r.value
  | none => none

/-- One pivot column as a series over the node index. -/
def seriesFor (tbl : Table) (m t s : String) : List (Option ℚ) :=
  (tableNodes tbl).map (cellValue tbl m t s)

/-- Nearest valid entry at or before position `i` of a series, as
`(position, value)`. -/
def prevValid (ys : List (Option ℚ)) (i : ℕ) : Option (ℕ × ℚ) :=
  (List.range (i + 1)).reverse.findSome?
    (fun j => (ys.getD j none).map (fun v => (j, v)))

/-- Nearest valid entry at or after position `i` of a series. -/
def nextValid (ys : List (Option ℚ)) (i : ℕ) : Option (ℕ × ℚ) :=
  ((List.range ys.length).drop i).findSome?
    (fun j => (ys.getD j none).map (fun v => (j, v)))

/-- pandas `Series.interpolate(method="linear", limit_direction="both")` on
one pivot column: interior NaNs are positionally linearly interpolated
between the nearest valid neighbours, leading NaNs are back-filled from the
next valid value, trailing NaNs forward-filled from the previous valid
value; a series with no valid entry stays NaN. -/
def interpSeries (ys : List (Option ℚ)) : List (Option ℚ) :=
  (List.range ys.length).map (fun i =>
    match ys.getD i none with
    | some v => some v
    | none =>
      match prevValid ys i, nextValid ys i with
      | some (j, a), some (k, b) =>
          some (a + ((i : ℚ) - (j : ℚ)) * (b - a) / ((k : ℚ) - (j : ℚ)))
      | some (_, a), none => some a
      | none, some (_, b) => some b
      | none, none => none)

/-- `series[~series.isnull()]` as `(x, y)` pairs, `x` drawn from the nodeID
index. -/
def validPoints (xs : List Int) (ys : List (Option ℚ)) : List (Int × ℚ) :=
  (xs.zip ys).filterMap (fun p => p.2.map (fun v => (p.1, v)))

/-- The linear function through points `p` and `q`, evaluated at `x`. -/
def lerp (p q : Int × ℚ) (x : Int) : ℚ :=
  p.2 + ((x : ℚ) - (p.1 : ℚ)) * (q.2 - p.2) / ((q.1 : ℚ) - (p.1 : ℚ))

/-- Piecewise-linear interpolant through an ascending knot list, with
linear extrapolation from the first/last segment outside the knot range —
the function `scipy.interpolate.interp1d(x, y, kind="linear",
fill_value="extrapolate")` computes. -/
def evalPiecewise : List (Int × ℚ) → Int → ℚ
  | [], _ => 0
  | [p], _ => p.2
  | [p, q], x => lerp p q x
  | p :: q :: r :: rest, x =>
      if x ≤ q.1 then lerp p q x else evalPiecewise (q :: r :: rest) x

/-- `interp_linear_with_extrap` on one pivot column: fit `interp1d` to the
valid points and evaluate it on the whole node index; scipy raises
(`none`) unless there are at least two valid points. -/
def extrapSeries (xs : List Int) (ys : List (Option ℚ)) :
    Option (List (Option ℚ)) :=
  let pts := validPoints xs ys
  if 2 ≤ pts.length then some (xs.map (fun x => some (evalPiecewise pts x)))
  else none

/-- The surviving pivot columns `(metric, tractID, subjectID)` in the
pivot's lexicographic column order. -/
def tableCombos (tbl : Table) : List (String × String × String) :=
  (tableMetrics tbl).flatMap (fun m =>
    (tableTracts tbl).flatMap (fun t =>
      (tableSubjects tbl).filterMap (fun s =>
        if hasValid tbl m t s then some (m, t, s) else none)))

/-- The interpolation step of `transform` — `by_node_idx.interpolate(...)`
under the interior policy, `by_node_idx.apply(interp_linear_with_extrap)`
under the extrapolation policy (which aborts with a scipy error, `none`,
when some column has fewer than two valid points). -/
def interpolateStage (extrapolate : Bool) (tbl : Table) :
    Option (List ((String × String × String) × List (Option ℚ))) :=
  let combos := tableCombos tbl
  if extrapolate then
    if combos.all (fun c =>
        2 ≤ (validPoints (tableNodes tbl) (seriesFor tbl c.1 c.2.1 c.2.2)).length) then
      some (combos.map (fun c =>
        (c, (extrapSeries (tableNodes tbl) (seriesFor tbl c.1 c.2.1 c.2.2)).getD [])))
    else none
  else
    some (combos.map (fun c => (c, interpSeries (seriesFor tbl c.1 c.2.1 c.2.2))))

/-- The interpolated value the stage output holds for the key of record
`r` — the entry of the `(metric, tractID, subjectID)` series at the pivot
position of `r.nodeID`. -/
def stageValue (tbl : Table) (out : List ((String × String × String) × List (Option ℚ)))
    (r : Record) : Option ℚ :=
  ((out.lookup (r.metric, r.tractID, r.subjectID)).getD []).getD
    ((tableNodes tbl).indexOf r.nodeID) none

/-- The feature-matrix column keys:
`pd.MultiIndex.from_product(features.columns.levels)` — the full cross
product of the observed metric, tract and node values, metric-major. -/
def colKeysOf (tbl : Table) : List ColKey :=
  (tableMetrics tbl).flatMap (fun m =>
    (tableTracts tbl).flatMap (fun t =>
      (tableNodes tbl).map (fun n => (m, t, n))))

/-- The interpolated pivot cell for subject `s` at feature column
`(m, t, n)` — NaN when the `(m, t, s)` series was dropped by the pivot
(`s` misses that whole metric/tract combination), which is the NaN the
stack/unstack step re-creates. -/
def interpCell (extrapolate : Bool) (tbl : Table) (m t s : String) (n : Int) :
    Option ℚ :=
  if hasValid tbl m t s then
    let ser := seriesFor tbl m t s
    let out := if extrapolate then (extrapSeries (tableNodes tbl) ser).getD []
      else interpSeries ser
    out.getD ((tableNodes tbl).indexOf n) none
  else none

/-- The row index of `features`: subjects with at least one non-NaN entry
(`stack` drops NaN cells), in sorted order. -/
def rowSubjects (extrapolate : Bool) (tbl : Table) : List String :=
  (tableSubjects tbl).filter (fun s =>
    (tableMetrics tbl).any (fun m =>
      (tableTracts tbl).any (fun t =>
        (tableNodes tbl).any (fun n =>
          (interpCell extrapolate tbl m t s n).isSome))))

/-- numpy / pandas median: the middle order statistic, or the mean of the
two middle ones for an even count; undefined (`none`, NaN) on an empty
list. -/
def medianOf (l : List ℚ) : Option ℚ :=
  let s := l.insertionSort (· ≤ ·)
  if s.length = 0 then none
  else if s.length % 2 = 1 then some (s.getD (s.length / 2) 0)
  else some ((s.getD (s.length / 2 - 1) 0 + s.getD (s.length / 2) 0) / 2)

/-- `features.median()` for one column: the median of its non-NaN entries. -/
def colMedian (extrapolate : Bool) (tbl : Table) (k : ColKey) : Option ℚ :=
  medianOf ((rowSubjects extrapolate tbl).filterMap
    (fun s => interpCell extrapolate tbl k.1 k.2.1 s k.2.2))

/-- `features.fillna(features.median())`: a NaN cell takes its column
median; when the median is itself NaN (an all-NaN column) the cell stays
NaN. -/
def filledCell (extrapolate : Bool) (tbl : Table) (k : ColKey) (s : String) :
    Option ℚ :=
  match interpCell extrapolate tbl k.1 k.2.1 s k.2.2 with
  | some v => some v
  | none => colMedian extrapolate tbl k

/-- `features.columns.codes` of the cross-product MultiIndex: the level
codes `(metric rank, tract rank, node rank)` of each column, in column
order. -/
def productCodes (nm nt nn : ℕ) : List (ℕ × ℕ × ℕ) :=
  (List.range nm).flatMap (fun mi =>
    (List.range nt).flatMap (fun ti =>
      (List.range nn).map (fun ni => (mi, ti, ni))))

/-- `bundle_group_membership = codes[metric] * n_tracts + codes[tract]`. -/
def membershipOf (nm nt nn : ℕ) : List ℕ :=
  (productCodes nm nt nn).map (fun c => c.1 * nt + c.2.1)

/-- The group membership code of every feature column of a table. -/
def tableMembership (tbl : Table) : List ℕ :=
  membershipOf (tableMetrics tbl).length (tableTracts tbl).length
    (tableNodes tbl).length

/-- `np.unique`: sorted distinct values. -/
def uniqueSorted (l : List ℕ) : List ℕ :=
  l.dedup.insertionSort (· ≤ ·)

/-- `groups = [np.where(membership == gid)[0] for gid in
np.unique(membership)]`. -/
def groupsOf (membership : List ℕ) : List (List ℕ) :=
  (uniqueSorted membership).map (fun gid =>
    (List.range membership.length).filter (fun j => membership.getD j 0 = gid))

/-- The quadruple `AFQFeatureTransformer.transform` returns. -/
structure TransformResult where
  X : List (List (Option ℚ))
  groups : List (List ℕ)
  columns : List ColKey
  bias_index : Option ℕ
deriving DecidableEq

/-- `AFQFeatureTransformer.transform(df, extrapolate, add_bias_feature)`:
pivot by node, interpolate each pivot column (the scipy error of the
extrapolation policy on a column with fewer than two valid points aborts
the call, modelled as `none`), stack/unstack into one row per surviving
subject and one column per cross-product key, median-impute remaining NaN
cells, derive the group index, and optionally append an all-ones bias
column whose index is the non-bias column count. -/
def transform (tbl : Table) (extrapolate add_bias_feature : Bool) :
    Option TransformResult :=
  if extrapolate && ! (tableCombos tbl).all (fun c =>
      2 ≤ (validPoints (tableNodes tbl) (seriesFor tbl c.1 c.2.1 c.2.2)).length)
  then none
  else
    let cols := colKeysOf tbl
    let rows := rowSubjects extrapolate tbl
    let X0 := rows.map (fun s => cols.map (fun k => filledCell extrapolate tbl k s))
    let groups := groupsOf (tableMembership tbl)
    if add_bias_feature then
      some ⟨X0.map (fun row => row ++ [some 1]), groups, cols, some cols.length⟩
    else
      some ⟨X0, groups, cols, none⟩

/-- The data-model invariant of the measurement table: no duplicate
`(subjectID, tractID, nodeID, metric)` keys. -/
def keyOf (r : Record) : String × String × Int × String :=
  (r.subjectID, r.tractID, r.nodeID, r.metric)

/-- Well-formedness: the table has no duplicate keys. -/
def NodupKeys (tbl : Table) : Prop :=
  (tbl.map keyOf).Nodup

instance : DecidablePred NodupKeys := fun tbl =>
  inferInstanceAs (Decidable (tbl.map keyOf).Nodup)

/-- The distinct subjects possessing at least one non-missing value. -/
def validSubjects (tbl : Table) : List String :=
  ((tbl.filter (fun r => r.value.isSome)).map (·.subjectID)).dedup

/-- Example: a complete one-record table (a single node). -/
def exTableSingle : Table := [⟨"s1", "T", 0, "FA", some 1⟩]

/-- Example: metric `"FA"` observed only at `(A, 0)` and `(B, 1)` for
subject `"s1"`; subject `"s2"` has a single missing value. -/
def exTableSparse : Table :=
  [⟨"s1", "A", 0, "FA", some 1⟩, ⟨"s1", "B", 1, "FA", some 2⟩,
   ⟨"s2", "A", 0, "FA", none⟩]

/-- Example: metrics and tracts that never co-occur — `"FA"` only on tract
`"A"`, `"MD"` only on tract `"B"` — so the cross-product columns
`("FA","B",0)` and `("MD","A",0)` have no valid value for any subject. -/
def exTableMixed : Table :=
  [⟨"s1", "A", 0, "FA", some 1⟩, ⟨"s1", "B", 0, "MD", some 2⟩]

/-- Example: a complete two-node table. -/
def exTableComplete : Table :=
  [⟨"s1", "T", 0, "FA", some 1⟩, ⟨"s1", "T", 1, "FA", some 2⟩]

/-! ### Helper lemmas about masks and filtering -/

theorem filterByMask_all_false {α : Type} (bs : List Bool) (r : List α)
    (h : ∀ b ∈ bs, b = false) : filterByMask bs r = [] := by
  induction bs generalizing r with
  | nil => cases r <;> rfl
  | cons b bs ih =>
      cases r with
      | nil => rfl
      | cons a as =>
          have hb : b = false := h b (by simp)
          simp [filterByMask, hb]
          exact ih as (fun b' hb' => h b' (by simp [hb']))

theorem map_or_zip {α : Type} (l : List α) (f g : α → Bool) :
    ((l.map f).zip (l.map g)).map (fun p => p.1 || p.2) =
      l.map (fun s => f s || g s) := by
  induction l with
  | nil => rfl
  | cons a as ih => simp [ih]

/-- The boolean accumulation in `remove_groups` / `select_groups`:
starting from the column-wise mask `label_sets.map f` and or-ing in a
column-wise mask per label is the column-wise `any` over the labels. -/
theorem or_mask_foldl (Ls : List (List Label)) (lsets : List (Finset Label))
    (p : List Label → Finset Label → Bool) (f : Finset Label → Bool) :
    Ls.foldl
      (fun acc label =>
        ((acc.zip (lsets.map (fun s => p label s))).map (fun q => q.1 || q.2)))
      (lsets.map f)
    = lsets.map (fun s => f s || Ls.any (fun L => p L s)) := by
  induction Ls generalizing f with
  | nil => simp
  | cons L Ls ih =>
      rw [List.foldl_cons, map_or_zip, ih]
      congr 1
      funext s
      simp [Bool.or_assoc]

theorem filterByMask_map {α : Type} (p : Finset Label → Bool)
    (lsets : List (Finset Label)) (r : List α) :
    filterByMask (lsets.map p) r =
      (r.zip lsets).filterMap (fun q => if p q.2 then some q.1 else none) := by
  induction r generalizing lsets with
  | nil => cases lsets <;> rfl
  | cons a as ih =>
      cases lsets with
      | nil => rfl
      | cons s ss =>
          by_cases hp : p s <;> simp [filterByMask, hp, ih]

theorem getD_map_lt {α β : Type} (f : α → β) (dflt : α) (dfltb : β) :
    ∀ (l : List α) (j : ℕ), j < l.length →
      (l.map f).getD j dfltb = f (l.getD j dflt)
  | [], j, h => absurd h (by simp)
  | a :: as, 0, _ => rfl
  | a :: as, j + 1, h =>
    getD_map_lt f dflt dfltb as j (Nat.lt_of_succ_lt_succ (by simpa using h))

/-! ### C1, C10 — `remove_groups` -/

/-- C1 (counterexample): a single column whose label set does not match the
single label to remove — per the claim it must be dropped, but
`remove_groups` keeps it. -/
theorem remove_groups_counterexample :
    remove_groups (.two [[(1 : ℚ)]]) [[Label.str "b"]] [{Label.str "a"}] =
        .two [[(1 : ℚ)]] ∧
      labelMatch [Label.str "b"] {Label.str "a"} = false := by
  decide

/-- C1 (amended): `remove_groups` KEEPS exactly those columns whose label
set fails to be a superset of at least one label tuple in `Ls` (a column is
kept iff there exists a label in `Ls` that it does not match, hence removed
iff it matches every label in `Ls`), preserving the original column order;
this holds for rank-2 and rank-1 inputs. -/
theorem remove_groups_keeps_columns_failing_some_label
    (x : List (List ℚ)) (v : List ℚ) (Ls : List (List Label))
    (lsets : List (Finset Label)) :
    remove_groups (.two x) Ls lsets =
      .two (x.map (fun r => (r.zip lsets).filterMap
        (fun q => if ∃ L ∈ Ls, ¬ labelMatch L q.2 = true then some q.1 else none))) ∧
    remove_groups (.one v) Ls lsets =
      .one ((v.zip lsets).filterMap
        (fun q => if ∃ L ∈ Ls, ¬ labelMatch L q.2 = true then some q.1 else none)) := by
  have hmask :
      Ls.foldl
        (fun acc label =>
          ((acc.zip (lsets.map (fun s => ! labelMatch label s))).map
            (fun q => q.1 || q.2)))
        (lsets.map (fun _ => false))
      = lsets.map (fun s => Ls.any (fun L => ! labelMatch L s)) := by
    rw [or_mask_foldl Ls lsets (fun L s => ! labelMatch L s) (fun _ => false)]
    simp
  have hfun : ∀ r : List ℚ,
      filterByMask (lsets.map (fun s => Ls.any (fun L => ! labelMatch L s))) r =
        (r.zip lsets).filterMap
          (fun q => if ∃ L ∈ Ls, ¬ labelMatch L q.2 = true then some q.1 else none) := by
    intro r
    rw [filterByMask_map]
    apply List.filterMap_congr
    intro q _
    have hiff : (Ls.any (fun L => ! labelMatch L q.2) = true) ↔
        (∃ L ∈ Ls, ¬ labelMatch L q.2 = true) := by
      simp [List.any_eq_true]
    exact if_congr hiff rfl rfl
  constructor
  · simp only [remove_groups]
    rw [hmask]
    simp only [NDArr.colMask]
    congr 1
    exact List.map_congr_left (fun r _ => hfun r)
  · simp only [remove_groups]
    rw [hmask]
    simp only [NDArr.colMask]
    congr 1
    exact hfun v

/-- C10: `remove_groups` with an empty list of labels to remove returns a
matrix with zero columns (the or-accumulated mask stays all false and a
false mask keeps nothing), for rank-2 and rank-1 inputs — not a no-op. -/
theorem remove_groups_empty_labels (x : List (List ℚ)) (v : List ℚ)
    (lsets : List (Finset Label)) :
    remove_groups (.two x) [] lsets = .two (x.map (fun _ => [])) ∧
    remove_groups (.one v) [] lsets = .one [] := by
  have hempty : ∀ r : List ℚ,
      filterByMask (lsets.map (fun _ => false)) r = [] := by
    intro r
    exact filterByMask_all_false _ r (by simp)
  constructor
  · show NDArr.two _ = _
    congr 1
    exact List.map_congr_left (fun r _ => hempty r)
  · show NDArr.one _ = _
    congr 1
    exact hempty v

/-! ### C7 — `select_group` / `remove_group` complement -/

/-- C7: for one label, the `select_group` mask and the `remove_group` mask
are complementary: the two kept-column index sets are disjoint and their
union is the full column index range; the two results are exactly the
correspondingly masked matrices. -/
theorem select_remove_group_complement (L : List Label)
    (lsets : List (Finset Label)) (x : List (List ℚ)) :
    select_group (.two x) L lsets =
        .two (x.map (filterByMask (lsets.map (fun s => labelMatch L s)))) ∧
    remove_group (.two x) L lsets =
        .two (x.map (filterByMask (lsets.map (fun s => ! labelMatch L s)))) ∧
    Disjoint (keptIndices (lsets.map (fun s => labelMatch L s)))
        (keptIndices (lsets.map (fun s => ! labelMatch L s))) ∧
    keptIndices (lsets.map (fun s => labelMatch L s)) ∪
        keptIndices (lsets.map (fun s => ! labelMatch L s)) =
      Finset.range lsets.length := by
  refine ⟨rfl, rfl, ?_, ?_⟩
  · rw [Finset.disjoint_left]
    intro j hj hj'
    simp only [keptIndices, Finset.mem_filter, Finset.mem_range,
      List.length_map] at hj hj'
    rw [getD_map_lt _ ∅ false lsets j hj.1] at hj
    rw [getD_map_lt _ ∅ false lsets j hj'.1] at hj'
    rw [hj.2] at hj'
    exact absurd hj'.2 (by simp)
  · ext j
    simp only [keptIndices, Finset.mem_union, Finset.mem_filter,
      Finset.mem_range, List.length_map]
    constructor
    · rintro (h | h) <;> exact h.1
    · intro hj
      rw [getD_map_lt (fun s => labelMatch L s) ∅ false lsets j hj,
        getD_map_lt (fun s => ! labelMatch L s) ∅ false lsets j hj]
      cases hm : labelMatch L (lsets.getD j ∅) with
      | true => exact Or.inl ⟨hj, rfl⟩
      | false => exact Or.inr ⟨hj, rfl⟩

/-! ### C4 — `shuffle_group` seeded determinism and state restoration -/

/-- C4: with an explicit seed, `shuffle_group` (i) produces an output
independent of the ambient generator state — hence two calls with the same
seed, input and label give identical outputs — and (ii) returns the ambient
state unchanged, so an unseeded draw made immediately afterwards equals the
draw that would have been made had the seeded shuffle never occurred. -/
theorem shuffle_group_seeded_deterministic {σ : Type} (R : NpRandom σ)
    (x : List (List ℚ)) (label : List Label) (label_sets : List (Finset Label))
    (k : ℕ) (g g' : σ) :
    (shuffle_group R x label label_sets (some k) g).1 =
        (shuffle_group R x label label_sets (some k) g').1 ∧
    (shuffle_group R x label label_sets (some k) g).2 = g ∧
    ∀ v : List ℚ,
      R.shuffle (shuffle_group R x label label_sets (some k) g).2 v =
        R.shuffle g v := by
  exact ⟨rfl, rfl, fun _ => rfl⟩

/-! ### C5 — `multicol2sets` with tract symmetry -/

/-- C5: on the column key `("FA", "Left Cingulum", 5)` with tract symmetry
enabled, `multicol2sets` yields exactly the label set
`{"FA", "Left Cingulum", 5, "Cingulum"}` — the symmetrized name comes from
stripping the leading `"Left "`. -/
theorem multicol2sets_left_cingulum :
    multicol2sets [("FA", "Left Cingulum", (5 : Int))] true =
      [({Label.str "FA", Label.str "Left Cingulum", Label.num 5,
          Label.str "Cingulum"} : Finset Label)] := by
  decide

/-! ### C9 — `beta_hat_by_groups` with `drop_zeros` -/

theorem lookup_filterMap_self_none {β : Type} (f : String → Option (String × β))
    (hf : ∀ t q, f t = some q → q.1 = t) (l : List String) (tract : String)
    (h : f tract = none) : ((l.filterMap f).lookup tract) = none := by
  induction l with
  | nil => rfl
  | cons t ts ih =>
      cases hft : f t with
      | none => simpa [List.filterMap_cons, hft] using ih
      | some q =>
          have hq : q.1 = t := hf t q hft
          have he : tract ≠ q.1 := by
            rw [hq]
            intro hh
            rw [hh] at h
            rw [h] at hft
            cases hft
          have hne : (tract == q.1) = false := by
            simp [he]
          rw [List.filterMap_cons, hft]
          simp only [List.lookup, hne]
          exact ih

theorem lookup_filterMap_self_some {β : Type} (f : String → Option (String × β))
    (hf : ∀ t q, f t = some q → q.1 = t) (l : List String) (tract : String)
    (d : β) (h : (l.filterMap f).lookup tract = some d) :
    f tract = some (tract, d) := by
  induction l with
  | nil => simp [List.lookup] at h
  | cons t ts ih =>
      cases hft : f t with
      | none =>
          rw [List.filterMap_cons, hft] at h
          exact ih h
      | some q =>
          have hq : q.1 = t := hf t q hft
          rw [List.filterMap_cons, hft] at h
          by_cases he : tract = q.1
          · have htq : (tract == q.1) = true := by simp [he]
            simp only [List.lookup, htq] at h
            have hd : q.2 = d := by
              cases h
              rfl
            have ht : t = tract := (he.trans hq).symm
            rw [← ht, hft]
            have hqd : q = (t, d) := by
              cases q with
              | mk a b =>
                  simp only at hq hd
                  rw [hq, hd]
            rw [hqd]
          · have htq : (tract == q.1) = false := by simp [he]
            simp only [List.lookup, htq] at h
            exact ih h

/-- C9: with `drop_zeros = true`, `beta_hat_by_groups` omits a tract key
entirely when every coefficient selected by that tract label is zero, and
inside a present tract omits a metric entry when every coefficient of that
(tract, metric) subvector is zero. -/
theorem beta_hat_by_groups_dropZeros_omits (beta : List ℚ) (cols : List ColKey) :
    (∀ tract,
      (∀ q ∈ (select_group (.one beta) [Label.str tract]
          (multicol2sets cols false)).asVec, q = 0) →
      (beta_hat_by_groups beta cols true).lookup tract = none) ∧
    (∀ tract metric d,
      (beta_hat_by_groups beta cols true).lookup tract = some d →
      (∀ q ∈ (select_group (.one beta) [Label.str tract, Label.str metric]
          (multicol2sets cols false)).asVec, q = 0) →
      d.lookup metric = none) := by
  have hzero : ∀ (v : List ℚ), (∀ q ∈ v, q = 0) →
      v.any (fun q => decide (q ≠ 0)) = false := by
    intro v hv
    rw [List.any_eq_false]
    intro q hq
    rw [hv q hq]
    simp
  have hkey : ∀ t (q : String × List (String × List ℚ)),
      (if ((select_group (.one beta) [Label.str t]
          (multicol2sets cols false)).asVec.any (fun q => decide (q ≠ 0))) then
        some (t, (metricLevel cols).filterMap (fun metric =>
          if ((select_group (.one beta) [Label.str t, Label.str metric]
              (multicol2sets cols false)).asVec.any (fun q => decide (q ≠ 0))) then
            some (metric, (select_group (.one beta)
              [Label.str t, Label.str metric]
              (multicol2sets cols false)).asVec)
          else none))
      else none) = some q → q.1 = t := by
    intro t q hq
    by_cases hc : ((select_group (.one beta) [Label.str t]
        (multicol2sets cols false)).asVec.any (fun q => decide (q ≠ 0))) = true
    · rw [if_pos hc] at hq
      cases hq
      rfl
    · rw [if_neg hc] at hq
      cases hq
  constructor
  · intro tract hall
    simp only [beta_hat_by_groups, Bool.not_true, Bool.false_or]
    apply lookup_filterMap_self_none _ hkey
    rw [hzero _ hall]
    simp
  · intro tract metric d hd hall
    simp only [beta_hat_by_groups, Bool.not_true, Bool.false_or] at hd
    have hfd := lookup_filterMap_self_some _ hkey (tractLevel cols) tract d hd
    by_cases hc : ((select_group (.one beta) [Label.str tract]
        (multicol2sets cols false)).asVec.any (fun q => decide (q ≠ 0))) = true
    · rw [if_pos hc] at hfd
      have hdval : d = (metricLevel cols).filterMap (fun metric =>
          if ((select_group (.one beta) [Label.str tract, Label.str metric]
              (multicol2sets cols false)).asVec.any (fun q => decide (q ≠ 0))) then
            some (metric, (select_group (.one beta)
              [Label.str tract, Label.str metric]
              (multicol2sets cols false)).asVec)
          else none) := by
        cases hfd
        rfl
      rw [hdval]
      apply lookup_filterMap_self_none
      · intro m q hq
        by_cases hcm : ((select_group (.one beta)
            [Label.str tract, Label.str m]
            (multicol2sets cols false)).asVec.any (fun q => decide (q ≠ 0))) = true
        · rw [if_pos hcm] at hq
          cases hq
          rfl
        · rw [if_neg hcm] at hq
          cases hq
      · rw [hzero _ hall]
        simp
    · rw [if_neg hc] at hfd
      cases hfd

/-- C9 (witness): a concrete coefficient vector in which tract `"B"` is
all-zero: the tract is omitted from the `drop_zeros` result. -/
theorem beta_hat_by_groups_dropZeros_omits_witness :
    (∀ q ∈ (select_group (.one [(1 : ℚ), 0]) [Label.str "B"]
        (multicol2sets [("FA", "A", 0), ("FA", "B", 0)] false)).asVec, q = 0) ∧
    (beta_hat_by_groups [(1 : ℚ), 0] [("FA", "A", 0), ("FA", "B", 0)] true).lookup "B"
      = none :=
  ⟨by decide,
    (beta_hat_by_groups_dropZeros_omits [(1 : ℚ), 0]
      [("FA", "A", 0), ("FA", "B", 0)]).1 "B" (by decide)⟩

/-! ### Level, pivot and interpolation lemmas -/

theorem mem_sortedLevel {x : String} {l : List String} :
    x ∈ sortedLevel l ↔ x ∈ l := by
  unfold sortedLevel
  rw [(List.perm_insertionSort _ _).mem_iff, List.mem_dedup]

theorem mem_tableNodes {n : Int} {tbl : Table} :
    n ∈ tableNodes tbl ↔ n ∈ tbl.map (·.nodeID) := by
  unfold tableNodes
  rw [(List.perm_insertionSort _ _).mem_iff, List.mem_dedup]

theorem nodup_tableNodes (tbl : Table) : (tableNodes tbl).Nodup := by
  unfold tableNodes
  rw [(List.perm_insertionSort _ _).nodup_iff]
  exact List.nodup_dedup _

theorem sorted_tableNodes (tbl : Table) :
    List.Sorted (· ≤ ·) (tableNodes tbl) :=
  List.sorted_insertionSort _ _

theorem pairwise_lt_tableNodes (tbl : Table) :
    List.Pairwise (· < ·) (tableNodes tbl) :=
  ((sorted_tableNodes tbl).and (nodup_tableNodes tbl)).imp
    (fun h => lt_of_le_of_ne h.1 h.2)

theorem indexOf_facts {α : Type} [BEq α] [LawfulBEq α] :
    ∀ (l : List α) (a : α), a ∈ l →
      l.indexOf a < l.length ∧ ∀ d, l.getD (l.indexOf a) d = a := by
  intro l
  induction l with
  | nil => intro a ha; cases ha
  | cons b bs ih =>
      intro a ha
      by_cases hba : (b == a) = true
      · have h0 : (b :: bs).indexOf a = 0 := by
          unfold List.indexOf
          rw [List.findIdx_cons, hba]
          rfl
        refine ⟨by rw [h0]; simp, fun d => ?_⟩
        rw [h0, List.getD_cons_zero]
        exact eq_of_beq hba
      · have hmem : a ∈ bs := by
          rcases List.mem_cons.mp ha with rfl | hm
          · exact absurd (by simp) hba
          · exact hm
        have hsucc : (b :: bs).indexOf a = bs.indexOf a + 1 := by
          unfold List.indexOf
          rw [List.findIdx_cons]
          rw [show (b == a) = false by simpa using hba]
          rfl
        obtain ⟨hlt, hget⟩ := ih a hmem
        refine ⟨by rw [hsucc]; simpa using hlt, fun d => ?_⟩
        rw [hsucc, List.getD_cons_succ]
        exact hget d

theorem getD_map_range {β : Type} (f : ℕ → β) (n i : ℕ) (h : i < n) (d : β) :
    ((List.range n).map f).getD i d = f i := by
  rw [getD_map_lt f 0 d (List.range n) i (by simpa using h)]
  congr 1
  rw [List.getD_eq_getElem _ _ (by simpa using h)]
  simp

theorem cellValue_of_mem {tbl : Table} (hnd : NodupKeys tbl) {r : Record}
    (hr : r ∈ tbl) :
    cellValue tbl r.metric r.tractID r.subjectID r.nodeID = r.value := by
  unfold cellValue
  cases hfind : tbl.find? (fun r' =>
      r'.metric == r.metric && r'.tractID == r.tractID &&
      r'.subjectID == r.subjectID && r'.nodeID == r.nodeID) with
  | none =>
      exact absurd (by simp) (List.find?_eq_none.mp hfind r hr)
  | some r' =>
      have hp' := List.find?_some hfind
      have hmem' := List.mem_of_find?_eq_some hfind
      simp only [Bool.and_eq_true, beq_iff_eq] at hp'
      obtain ⟨⟨⟨h1, h2⟩, h3⟩, h4⟩ := hp'
      have hkey : keyOf r' = keyOf r := by
        simp [keyOf, h1, h2, h3, h4]
      rw [List.inj_on_of_nodup_map hnd hmem' hr hkey]

theorem hasValid_of_record {tbl : Table} {r : Record} (hr : r ∈ tbl)
    (hv : r.value.isSome = true) :
    hasValid tbl r.metric r.tractID r.subjectID = true := by
  unfold hasValid
  rw [List.any_eq_true]
  exact ⟨r, hr, by simp [hv]⟩

theorem hasValid_witness {tbl : Table} {m t s : String}
    (h : hasValid tbl m t s = true) :
    ∃ r ∈ tbl, r.metric = m ∧ r.tractID = t ∧ r.subjectID = s ∧
      r.value.isSome = true := by
  unfold hasValid at h
  rw [List.any_eq_true] at h
  obtain ⟨r, hr, hp⟩ := h
  simp only [Bool.and_eq_true, beq_iff_eq] at hp
  exact ⟨r, hr, hp.1.1.1, hp.1.1.2, hp.1.2, hp.2⟩

theorem mem_tableMetrics_of_record {tbl : Table} {r : Record} (hr : r ∈ tbl) :
    r.metric ∈ tableMetrics tbl :=
  mem_sortedLevel.mpr (List.mem_map.mpr ⟨r, hr, rfl⟩)

theorem mem_tableTracts_of_record {tbl : Table} {r : Record} (hr : r ∈ tbl) :
    r.tractID ∈ tableTracts tbl :=
  mem_sortedLevel.mpr (List.mem_map.mpr ⟨r, hr, rfl⟩)

theorem mem_tableSubjects_of_record {tbl : Table} {r : Record} (hr : r ∈ tbl) :
    r.subjectID ∈ tableSubjects tbl :=
  mem_sortedLevel.mpr (List.mem_map.mpr ⟨r, hr, rfl⟩)

theorem mem_tableCombos {tbl : Table} {m t s : String} :
    (m, t, s) ∈ tableCombos tbl ↔
      m ∈ tableMetrics tbl ∧ t ∈ tableTracts tbl ∧ s ∈ tableSubjects tbl ∧
      hasValid tbl m t s = true := by
  unfold tableCombos
  simp only [List.mem_flatMap, List.mem_filterMap]
  constructor
  · rintro ⟨m', hm', t', ht', s', hs', hif⟩
    by_cases hv : hasValid tbl m' t' s' = true
    · rw [if_pos hv] at hif
      simp only [Option.some.injEq, Prod.mk.injEq] at hif
      obtain ⟨rfl, rfl, rfl⟩ := hif
      exact ⟨hm', ht', hs', hv⟩
    · rw [if_neg hv] at hif
      cases hif
  · rintro ⟨hm, ht, hs, hv⟩
    exact ⟨m, hm, t, ht, s, hs, by rw [if_pos hv]⟩

theorem lookup_map_self {α β : Type} [BEq α] [LawfulBEq α] (l : List α)
    (F : α → β) (c : α) (hc : c ∈ l) :
    (l.map (fun a => (a, F a))).lookup c = some (F c) := by
  induction l with
  | nil => cases hc
  | cons a as ih =>
      rw [List.map_cons]
      by_cases hca : c = a
      · subst hca
        simp [List.lookup]
      · have hne : (c == a) = false := by simp [hca]
        simp only [List.lookup, hne]
        refine ih ?_
        rcases List.mem_cons.mp hc with rfl | h
        · exact absurd rfl hca
        · exact h

theorem seriesFor_getD (tbl : Table) (m t s : String) (i : ℕ)
    (h : i < (tableNodes tbl).length) :
    (seriesFor tbl m t s).getD i none =
      cellValue tbl m t s ((tableNodes tbl).getD i 0) := by
  unfold seriesFor
  exact getD_map_lt _ 0 none _ i h

theorem interpSeries_getD_some (ys : List (Option ℚ)) (i : ℕ)
    (h : i < ys.length) (v : ℚ) (hv : ys.getD i none = some v) :
    (interpSeries ys).getD i none = some v := by
  unfold interpSeries
  rw [getD_map_range _ ys.length i h none, hv]

theorem mem_validPoints_first {xs : List Int} {ys : List (Option ℚ)}
    {q : Int × ℚ} (h : q ∈ validPoints xs ys) : q.1 ∈ xs := by
  unfold validPoints at h
  rw [List.mem_filterMap] at h
  obtain ⟨⟨x, o⟩, hp, hq⟩ := h
  cases o with
  | none => cases hq
  | some v =>
      simp only [Option.map_some'] at hq
      cases hq
      exact (List.of_mem_zip hp).1

theorem validPoints_pairwise (xs : List Int) :
    ∀ (ys : List (Option ℚ)), List.Pairwise (· < ·) xs →
      List.Pairwise (fun p q : Int × ℚ => p.1 < q.1) (validPoints xs ys) := by
  induction xs with
  | nil => intro ys _; simp [validPoints]
  | cons x xs ih =>
      intro ys h
      cases ys with
      | nil => simp [validPoints]
      | cons y ys' =>
          rw [List.pairwise_cons] at h
          cases y with
          | none =>
              have heq : validPoints (x :: xs) (none :: ys') =
                  validPoints xs ys' := by
                simp [validPoints, List.zip_cons_cons, List.filterMap_cons]
              rw [heq]
              exact ih ys' h.2
          | some v =>
              have heq : validPoints (x :: xs) (some v :: ys') =
                  (x, v) :: validPoints xs ys' := by
                simp [validPoints, List.zip_cons_cons, List.filterMap_cons]
              rw [heq]
              refine List.Pairwise.cons ?_ (ih ys' h.2)
              intro q hq
              exact h.1 q.1 (mem_validPoints_first hq)

theorem validPoints_mem (xs : List Int) :
    ∀ (ys : List (Option ℚ)) (i : ℕ), i < xs.length → i < ys.length →
      ∀ v : ℚ, ys.getD i none = some v →
      (xs.getD i 0, v) ∈ validPoints xs ys := by
  induction xs with
  | nil => intro ys i hi; simp at hi
  | cons x xs ih =>
      intro ys i hi hiy v hv
      cases ys with
      | nil => simp at hiy
      | cons y ys' =>
          cases i with
          | zero =>
              rw [List.getD_cons_zero] at hv
              subst hv
              rw [List.getD_cons_zero]
              have heq : validPoints (x :: xs) (some v :: ys') =
                  (x, v) :: validPoints xs ys' := by
                simp [validPoints, List.zip_cons_cons, List.filterMap_cons]
              rw [heq]
              exact List.mem_cons_self _ _
          | succ i' =>
              rw [List.getD_cons_succ] at hv
              rw [List.getD_cons_succ]
              have hmem : (xs.getD i' 0, v) ∈ validPoints xs ys' :=
                ih ys' i' (by simpa using hi) (by simpa using hiy) v hv
              cases y with
              | none =>
                  have heq : validPoints (x :: xs) (none :: ys') =
                      validPoints xs ys' := by
                    simp [validPoints, List.zip_cons_cons, List.filterMap_cons]
                  rw [heq]
                  exact hmem
              | some w =>
                  have heq : validPoints (x :: xs) (some w :: ys') =
                      (x, w) :: validPoints xs ys' := by
                    simp [validPoints, List.zip_cons_cons, List.filterMap_cons]
                  rw [heq]
                  exact List.mem_cons.mpr (Or.inr hmem)

theorem lerp_left (p q : Int × ℚ) : lerp p q p.1 = p.2 := by
  unfold lerp
  simp

theorem lerp_right (p q : Int × ℚ) (h : p.1 < q.1) : lerp p q q.1 = q.2 := by
  unfold lerp
  have hne : ((q.1 : ℚ) - (p.1 : ℚ)) ≠ 0 := by
    rw [sub_ne_zero]
    exact_mod_cast ne_of_gt h
  rw [mul_comm, mul_div_assoc, div_self hne, mul_one]
  ring

theorem evalPiecewise_knot :
    ∀ (pts : List (Int × ℚ)),
      List.Pairwise (fun p q : Int × ℚ => p.1 < q.1) pts →
      ∀ p ∈ pts, evalPiecewise pts p.1 = p.2 := by
  intro pts
  induction pts with
  | nil => intro _ p hp; cases hp
  | cons p0 tail ih =>
      intro h p hp
      cases tail with
      | nil =>
          rw [List.mem_singleton.mp hp]
          rfl
      | cons q0 tail2 =>
          rw [List.pairwise_cons] at h
          rcases List.mem_cons.mp hp with rfl | hp'
          · cases tail2 with
            | nil => exact lerp_left p q0
            | cons r0 rest =>
                show evalPiecewise (p :: q0 :: r0 :: rest) p.1 = p.2
                rw [evalPiecewise, if_pos (le_of_lt (h.1 q0 (by simp)))]
                exact lerp_left p q0
          · cases tail2 with
            | nil =>
                rw [List.mem_singleton.mp hp']
                exact lerp_right p0 q0 (h.1 q0 (by simp))
            | cons r0 rest =>
                rcases List.mem_cons.mp hp' with rfl | hp''
                · show evalPiecewise (p0 :: p :: r0 :: rest) p.1 = p.2
                  rw [evalPiecewise, if_pos (le_refl _)]
                  exact lerp_right p0 p (h.1 p (by simp))
                · have hgt : q0.1 < p.1 :=
                    (List.pairwise_cons.mp h.2).1 p hp''
                  show evalPiecewise (p0 :: q0 :: r0 :: rest) p.1 = p.2
                  rw [evalPiecewise, if_neg (not_le.mpr hgt)]
                  exact ih h.2 p hp'

theorem extrapSeries_getD (xs : List Int) (ys : List (Option ℚ))
    (h2 : 2 ≤ (validPoints xs ys).length) (i : ℕ) (hi : i < xs.length) :
    ((extrapSeries xs ys).getD []).getD i none =
      some (evalPiecewise (validPoints xs ys) (xs.getD i 0)) := by
  simp only [extrapSeries]
  rw [if_pos h2]
  simp only [Option.getD_some]
  exact getD_map_lt _ 0 none xs i hi

/-! ### C2 — all-missing feature columns do not abort the build -/

/-- C2 (counterexample): in `exTableMixed` the feature columns
`("FA","B",0)` and `("MD","A",0)` have no valid value for any subject, yet
`transform` does not fail: it returns a feature matrix in which those
columns are still missing (`none`), together with groups, columns and bias
index. -/
theorem transform_counterexample_no_missing_data_error :
    transform exTableMixed false true =
      some ⟨[[some 1, none, none, some 2, some 1]], [[0], [1], [2], [3]],
        [("FA", "A", 0), ("FA", "B", 0), ("MD", "A", 0), ("MD", "B", 0)],
        some 4⟩ ∧
    (∀ r ∈ exTableMixed, r.value.isSome = true →
      ¬(r.metric = "FA" ∧ r.tractID = "B") ∧
      ¬(r.metric = "MD" ∧ r.tractID = "A")) := by
  decide

/-! ### C3 — feature-matrix shape -/

/-- C3 (counterexample): `exTableSparse` has 2 distinct subjectIDs and 2
distinct `(metric, tractID, nodeID)` triples, but the returned matrix has
1 row (subject `"s2"` has no valid value and is dropped by `stack`) and 4
non-bias columns (the cross product of 1 metric × 2 tracts × 2 nodes), so
neither shape equality of the claim holds. -/
theorem transform_shape_counterexample :
    transform exTableSparse false true =
      some ⟨[[some 1, some 1, some 2, some 2, some 1]], [[0, 1], [2, 3]],
        [("FA", "A", 0), ("FA", "A", 1), ("FA", "B", 0), ("FA", "B", 1)],
        some 4⟩ ∧
    (exTableSparse.map (fun r => r.subjectID)).dedup.length = 2 ∧
    (exTableSparse.map (fun r => (r.metric, r.tractID, r.nodeID))).dedup.length
      = 2 := by
  decide

/-! ### C8 — interpolation on complete tables -/

/-- C8 (counterexample): a complete table whose single series has one
point: the extrapolation policy aborts with a scipy error (`interp1d`
requires at least two points) instead of returning the table unchanged. -/
theorem interpolateStage_counterexample :
    (∀ r ∈ exTableSingle, r.value.isSome = true) ∧
    interpolateStage true exTableSingle = none := by
  decide

/-- C8 (amended): on a well-formed table with no missing values, the
interior (default) policy always succeeds, and whenever the interpolation
stage returns a table — always under the interior policy; under the
extrapolation policy exactly when no series has fewer than two valid
points — every `(metric, tractID, subjectID, nodeID)` value of the output
equals the corresponding input value. -/
theorem interpolateStage_preserves_complete (tbl : Table)
    (hc : ∀ r ∈ tbl, r.value.isSome = true) (hnd : NodupKeys tbl) :
    (interpolateStage false tbl).isSome = true ∧
    (∀ (e : Bool) out, interpolateStage e tbl = some out →
      ∀ r ∈ tbl, stageValue tbl out r = r.value) := by
  refine ⟨rfl, ?_⟩
  intro e out hout r hr
  obtain ⟨v, hv⟩ := Option.isSome_iff_exists.mp (hc r hr)
  have hHV : hasValid tbl r.metric r.tractID r.subjectID = true :=
    hasValid_of_record hr (hc r hr)
  have hcombo : (r.metric, r.tractID, r.subjectID) ∈ tableCombos tbl :=
    mem_tableCombos.mpr ⟨mem_tableMetrics_of_record hr,
      mem_tableTracts_of_record hr, mem_tableSubjects_of_record hr, hHV⟩
  have hnodemem : r.nodeID ∈ tableNodes tbl :=
    mem_tableNodes.mpr (List.mem_map.mpr ⟨r, hr, rfl⟩)
  obtain ⟨hidx, hgetDnode⟩ := indexOf_facts (tableNodes tbl) r.nodeID hnodemem
  have hser : (seriesFor tbl r.metric r.tractID r.subjectID).getD
      ((tableNodes tbl).indexOf r.nodeID) none = some v := by
    rw [seriesFor_getD _ _ _ _ _ hidx, hgetDnode 0, cellValue_of_mem hnd hr, hv]
  have hserlen : (seriesFor tbl r.metric r.tractID r.subjectID).length
      = (tableNodes tbl).length := by
    unfold seriesFor
    rw [List.length_map]
  cases e with
  | false =>
      have hout' : out = (tableCombos tbl).map (fun c =>
          (c, interpSeries (seriesFor tbl c.1 c.2.1 c.2.2))) := by
        unfold interpolateStage at hout
        cases hout
        rfl
      rw [hout']
      unfold stageValue
      rw [lookup_map_self _ _ _ hcombo]
      simp only [Option.getD_some]
      rw [hv]
      exact interpSeries_getD_some _ _ (by rw [hserlen]; exact hidx) v hser
  | true =>
      unfold interpolateStage at hout
      rw [if_pos rfl] at hout
      by_cases hall : ((tableCombos tbl).all (fun c =>
          2 ≤ (validPoints (tableNodes tbl)
            (seriesFor tbl c.1 c.2.1 c.2.2)).length)) = true
      · rw [if_pos hall] at hout
        have h2 : 2 ≤ (validPoints (tableNodes tbl)
            (seriesFor tbl r.metric r.tractID r.subjectID)).length := by
          have := List.all_eq_true.mp hall _ hcombo
          simpa using this
        have hout' : out = (tableCombos tbl).map (fun c =>
            (c, (extrapSeries (tableNodes tbl)
              (seriesFor tbl c.1 c.2.1 c.2.2)).getD [])) := by
          cases hout
          rfl
        rw [hout']
        unfold stageValue
        rw [lookup_map_self _ _ _ hcombo]
        simp only [Option.getD_some]
        rw [extrapSeries_getD _ _ h2 _ hidx, hgetDnode 0, hv]
        congr 1
        exact evalPiecewise_knot _
          (validPoints_pairwise _ _ (pairwise_lt_tableNodes tbl))
          (r.nodeID, v)
          (by
            have hm := validPoints_mem (tableNodes tbl)
              (seriesFor tbl r.metric r.tractID r.subjectID)
              ((tableNodes tbl).indexOf r.nodeID) hidx
              (by rw [hserlen]; exact hidx) v hser
            rwa [hgetDnode 0] at hm)
      · rw [if_neg hall] at hout
        cases hout

/-- C8 (witness): the amended statement applied to a concrete complete
two-node table. -/
theorem interpolateStage_preserves_complete_witness :
    (∀ r ∈ exTableComplete, r.value.isSome = true) ∧
    NodupKeys exTableComplete ∧
    ((interpolateStage false exTableComplete).isSome = true ∧
      (∀ (e : Bool) out, interpolateStage e exTableComplete = some out →
        ∀ r ∈ exTableComplete, stageValue exTableComplete out r = r.value)) :=
  ⟨by decide, by decide,
    interpolateStage_preserves_complete exTableComplete (by decide) (by decide)⟩

/-! ### Structure of a successful `transform` -/

theorem nodup_sortedLevel (l : List String) : (sortedLevel l).Nodup := by
  unfold sortedLevel
  rw [(List.perm_insertionSort _ _).nodup_iff]
  exact List.nodup_dedup _

theorem transform_guard {tbl : Table} {e b : Bool} {res : TransformResult}
    (hT : transform tbl e b = some res) :
    e = true → ∀ c ∈ tableCombos tbl,
      2 ≤ (validPoints (tableNodes tbl) (seriesFor tbl c.1 c.2.1 c.2.2)).length := by
  intro he c hc
  unfold transform at hT
  by_cases hg : (e && ! (tableCombos tbl).all (fun c =>
      2 ≤ (validPoints (tableNodes tbl) (seriesFor tbl c.1 c.2.1 c.2.2)).length)) = true
  · rw [if_pos hg] at hT
    cases hT
  · have hg' : (e && ! (tableCombos tbl).all (fun c =>
        2 ≤ (validPoints (tableNodes tbl)
          (seriesFor tbl c.1 c.2.1 c.2.2)).length)) = false := by
      cases hx : (e && ! (tableCombos tbl).all (fun c =>
          2 ≤ (validPoints (tableNodes tbl)
            (seriesFor tbl c.1 c.2.1 c.2.2)).length)) with
      | false => rfl
      | true => exact absurd hx hg
    rw [he, Bool.true_and] at hg'
    have hall : ((tableCombos tbl).all (fun c =>
        2 ≤ (validPoints (tableNodes tbl)
          (seriesFor tbl c.1 c.2.1 c.2.2)).length)) = true := by
      cases hv : (tableCombos tbl).all (fun c =>
          2 ≤ (validPoints (tableNodes tbl)
            (seriesFor tbl c.1 c.2.1 c.2.2)).length) with
      | false => rw [hv] at hg'; exact absurd hg' (by simp)
      | true => rfl
    have := List.all_eq_true.mp hall c hc
    simpa using this

theorem transform_fields {tbl : Table} {e b : Bool} {res : TransformResult}
    (hT : transform tbl e b = some res) :
    res.columns = colKeysOf tbl ∧
    res.groups = groupsOf (tableMembership tbl) ∧
    res.bias_index = (if b then some (colKeysOf tbl).length else none) ∧
    res.X = (rowSubjects e tbl).map (fun s =>
      (colKeysOf tbl).map (fun k => filledCell e tbl k s) ++
        (if b then [some 1] else [])) := by
  unfold transform at hT
  by_cases hg : (e && ! (tableCombos tbl).all (fun c =>
      2 ≤ (validPoints (tableNodes tbl) (seriesFor tbl c.1 c.2.1 c.2.2)).length)) = true
  · rw [if_pos hg] at hT
    cases hT
  · rw [if_neg hg] at hT
    cases b with
    | true =>
        rw [if_pos rfl] at hT
        cases hT
        refine ⟨rfl, rfl, rfl, ?_⟩
        simp [List.map_map, Function.comp]
    | false =>
        rw [if_neg (by simp)] at hT
        cases hT
        refine ⟨rfl, rfl, rfl, ?_⟩
        simp

/-- C2 (amended): an all-missing feature column does not abort the build
and is not imputed: `transform` still returns a result, and in it every
entry of such a column stays missing (the median of an empty value set is
undefined and `fillna` leaves NaN in place). -/
theorem transform_allmissing_column_stays_missing (tbl : Table) (e b : Bool)
    (res : TransformResult) (j : ℕ)
    (hT : transform tbl e b = some res) (hj : j < (colKeysOf tbl).length)
    (hcol : ∀ s ∈ rowSubjects e tbl,
      interpCell e tbl ((colKeysOf tbl).getD j ("", "", 0)).1
        ((colKeysOf tbl).getD j ("", "", 0)).2.1 s
        ((colKeysOf tbl).getD j ("", "", 0)).2.2 = none) :
    (transform tbl e b).isSome = true ∧
    ∀ row ∈ res.X, row.getD j none = none := by
  refine ⟨by rw [hT]; rfl, ?_⟩
  intro row hrow
  obtain ⟨_, _, _, hX⟩ := transform_fields hT
  rw [hX] at hrow
  obtain ⟨s, hs, rfl⟩ := List.mem_map.mp hrow
  rw [List.getD_append _ _ _ _ (by rw [List.length_map]; exact hj)]
  rw [getD_map_lt _ ("", "", 0) none _ j hj]
  unfold filledCell
  rw [hcol s hs]
  unfold colMedian
  have hempty : ((rowSubjects e tbl).filterMap (fun s' =>
      interpCell e tbl ((colKeysOf tbl).getD j ("", "", 0)).1
        ((colKeysOf tbl).getD j ("", "", 0)).2.1 s'
        ((colKeysOf tbl).getD j ("", "", 0)).2.2)) = [] := by
    rw [List.filterMap_eq_nil_iff]
    exact hcol
  rw [hempty]
  rfl

/-- C2 (witness): the amended statement applied to `exTableMixed` and its
all-missing column `("FA","B",0)` (index 1). -/
theorem transform_allmissing_witness :
    (transform exTableMixed false true).isSome = true ∧
    ∀ row ∈ (TransformResult.mk [[some 1, none, none, some 2, some 1]]
        [[0], [1], [2], [3]]
        [("FA", "A", 0), ("FA", "B", 0), ("MD", "A", 0), ("MD", "B", 0)]
        (some 4)).X, row.getD 1 none = none :=
  transform_allmissing_column_stays_missing exTableMixed false true
    (TransformResult.mk [[some 1, none, none, some 2, some 1]]
      [[0], [1], [2], [3]]
      [("FA", "A", 0), ("FA", "B", 0), ("MD", "A", 0), ("MD", "B", 0)]
      (some 4))
    1 (by decide) (by decide) (by decide)

theorem hasValid_of_interpCell {e : Bool} {tbl : Table} {m t s : String}
    {n : Int} (h : (interpCell e tbl m t s n).isSome = true) :
    hasValid tbl m t s = true := by
  by_cases hv : hasValid tbl m t s = true
  · exact hv
  · exfalso
    simp only [interpCell] at h
    rw [if_neg hv] at h
    cases h

theorem interpCell_isSome {tbl : Table} (hnd : NodupKeys tbl) {r : Record}
    (hr : r ∈ tbl) (hv : r.value.isSome = true) (e : Bool)
    (hall : e = true → ∀ c ∈ tableCombos tbl,
      2 ≤ (validPoints (tableNodes tbl) (seriesFor tbl c.1 c.2.1 c.2.2)).length) :
    (interpCell e tbl r.metric r.tractID r.subjectID r.nodeID).isSome = true := by
  obtain ⟨v, hval⟩ := Option.isSome_iff_exists.mp hv
  have hHV := hasValid_of_record hr hv
  obtain ⟨hidx, hgetD⟩ := indexOf_facts (tableNodes tbl) r.nodeID
    (mem_tableNodes.mpr (List.mem_map.mpr ⟨r, hr, rfl⟩))
  have hser : (seriesFor tbl r.metric r.tractID r.subjectID).getD
      ((tableNodes tbl).indexOf r.nodeID) none = some v := by
    rw [seriesFor_getD _ _ _ _ _ hidx, hgetD 0, cellValue_of_mem hnd hr, hval]
  have hserlen : (seriesFor tbl r.metric r.tractID r.subjectID).length
      = (tableNodes tbl).length := by
    unfold seriesFor
    rw [List.length_map]
  simp only [interpCell]
  rw [if_pos hHV]
  cases e with
  | false =>
      rw [if_neg (by simp)]
      rw [interpSeries_getD_some _ _ (by rw [hserlen]; exact hidx) v hser]
      rfl
  | true =>
      have hcombo : (r.metric, r.tractID, r.subjectID) ∈ tableCombos tbl :=
        mem_tableCombos.mpr ⟨mem_tableMetrics_of_record hr,
          mem_tableTracts_of_record hr, mem_tableSubjects_of_record hr, hHV⟩
      have h2 : 2 ≤ (validPoints (tableNodes tbl)
          (seriesFor tbl r.metric r.tractID r.subjectID)).length := by
        have := hall rfl _ hcombo
        simpa using this
      rw [if_pos rfl]
      rw [extrapSeries_getD _ _ h2 _ hidx]
      rfl

theorem mem_rowSubjects_iff {tbl : Table} (hnd : NodupKeys tbl) (e : Bool)
    (hall : e = true → ∀ c ∈ tableCombos tbl,
      2 ≤ (validPoints (tableNodes tbl) (seriesFor tbl c.1 c.2.1 c.2.2)).length)
    (s : String) :
    s ∈ rowSubjects e tbl ↔ s ∈ validSubjects tbl := by
  unfold rowSubjects validSubjects
  rw [List.mem_filter, List.mem_dedup, List.mem_map]
  constructor
  · rintro ⟨hsmem, hany⟩
    rw [List.any_eq_true] at hany
    obtain ⟨m, hm, hany⟩ := hany
    rw [List.any_eq_true] at hany
    obtain ⟨t, ht, hany⟩ := hany
    rw [List.any_eq_true] at hany
    obtain ⟨n, hn, hcell⟩ := hany
    obtain ⟨r, hr, h1, h2, h3, h4⟩ := hasValid_witness (hasValid_of_interpCell hcell)
    exact ⟨r, List.mem_filter.mpr ⟨hr, h4⟩, h3⟩
  · rintro ⟨r, hrf, rfl⟩
    obtain ⟨hr, hvS⟩ := List.mem_filter.mp hrf
    refine ⟨mem_tableSubjects_of_record hr, ?_⟩
    rw [List.any_eq_true]
    refine ⟨r.metric, mem_tableMetrics_of_record hr, ?_⟩
    rw [List.any_eq_true]
    refine ⟨r.tractID, mem_tableTracts_of_record hr, ?_⟩
    rw [List.any_eq_true]
    refine ⟨r.nodeID, mem_tableNodes.mpr (List.mem_map.mpr ⟨r, hr, rfl⟩), ?_⟩
    exact interpCell_isSome hnd hr hvS e hall

theorem length_flatMap_const {α β : Type} (A : List α) (f : α → List β) (k : ℕ)
    (hk : ∀ a ∈ A, (f a).length = k) : (A.flatMap f).length = A.length * k := by
  induction A with
  | nil => simp
  | cons a A' ih =>
      rw [List.flatMap_cons, List.length_append, hk a (by simp),
        ih (fun a' ha' => hk a' (by simp [ha'])), List.length_cons]
      rw [Nat.succ_mul]
      omega

theorem length_colKeysOf (tbl : Table) :
    (colKeysOf tbl).length = (tableMetrics tbl).length *
      ((tableTracts tbl).length * (tableNodes tbl).length) := by
  unfold colKeysOf
  refine length_flatMap_const _ _ _ ?_
  intro m _
  refine length_flatMap_const _ _ _ ?_
  intro t _
  rw [List.length_map]

/-- C3 (amended): for every successful build, the feature matrix has one
row per distinct subjectID possessing at least one non-missing value, and
one non-bias column per element of the CROSS PRODUCT of the observed
metrics, tracts and nodeIDs (not merely per present triple); when the bias
column is requested every row carries an extra trailing entry equal to 1
and the returned bias index is the number of non-bias columns. -/
theorem transform_shape (tbl : Table) (e b : Bool) (res : TransformResult)
    (hnd : NodupKeys tbl) (hT : transform tbl e b = some res) :
    res.X.length = (validSubjects tbl).length ∧
    res.columns.length = (tableMetrics tbl).length *
      ((tableTracts tbl).length * (tableNodes tbl).length) ∧
    (∀ row ∈ res.X, row.length = res.columns.length + (if b then 1 else 0)) ∧
    (b = true → res.bias_index = some res.columns.length ∧
      ∀ row ∈ res.X, row.getD res.columns.length none = some 1) ∧
    (b = false → res.bias_index = none) := by
  obtain ⟨hcols, hgroups, hbias, hX⟩ := transform_fields hT
  have hall := transform_guard hT
  have hnodupRow : (rowSubjects e tbl).Nodup :=
    List.Nodup.filter _ (nodup_sortedLevel _)
  have hnodupValid : (validSubjects tbl).Nodup := List.nodup_dedup _
  refine ⟨?_, ?_, ?_, ?_, ?_⟩
  · rw [hX, List.length_map]
    have hperm : List.Perm (rowSubjects e tbl) (validSubjects tbl) :=
      (List.perm_ext_iff_of_nodup hnodupRow hnodupValid).mpr
        (fun s => mem_rowSubjects_iff hnd e hall s)
    exact hperm.length_eq
  · rw [hcols]
    exact length_colKeysOf tbl
  · intro row hrow
    rw [hX] at hrow
    obtain ⟨s, hs, rfl⟩ := List.mem_map.mp hrow
    rw [List.length_append, List.length_map, hcols]
    cases b <;> rfl
  · intro hb
    subst hb
    constructor
    · rw [hbias, hcols]
      rfl
    · intro row hrow
      rw [hX] at hrow
      obtain ⟨s, hs, rfl⟩ := List.mem_map.mp hrow
      rw [hcols]
      rw [List.getD_append_right _ _ _ _ (by rw [List.length_map])]
      rw [List.length_map, Nat.sub_self]
      rfl
  · intro hb
    subst hb
    rw [hbias]
    rfl

/-- C3 (witness): the amended statement applied to a concrete complete
table (one subject, one tract, one metric, two nodes). -/
theorem transform_shape_witness :
    (TransformResult.mk [[some 1, some 2, some 1]] [[0, 1]]
        [("FA", "T", 0), ("FA", "T", 1)] (some 2)).X.length
      = (validSubjects exTableComplete).length ∧
    (TransformResult.mk [[some 1, some 2, some 1]] [[0, 1]]
        [("FA", "T", 0), ("FA", "T", 1)] (some 2)).columns.length
      = (tableMetrics exTableComplete).length *
        ((tableTracts exTableComplete).length *
          (tableNodes exTableComplete).length) ∧
    (∀ row ∈ (TransformResult.mk [[some 1, some 2, some 1]] [[0, 1]]
        [("FA", "T", 0), ("FA", "T", 1)] (some 2)).X,
      row.length = (TransformResult.mk [[some 1, some 2, some 1]] [[0, 1]]
        [("FA", "T", 0), ("FA", "T", 1)] (some 2)).columns.length +
          (if true then 1 else 0)) ∧
    (true = true → (TransformResult.mk [[some 1, some 2, some 1]] [[0, 1]]
        [("FA", "T", 0), ("FA", "T", 1)] (some 2)).bias_index
        = some (TransformResult.mk [[some 1, some 2, some 1]] [[0, 1]]
          [("FA", "T", 0), ("FA", "T", 1)] (some 2)).columns.length ∧
      ∀ row ∈ (TransformResult.mk [[some 1, some 2, some 1]] [[0, 1]]
          [("FA", "T", 0), ("FA", "T", 1)] (some 2)).X,
        row.getD (TransformResult.mk [[some 1, some 2, some 1]] [[0, 1]]
          [("FA", "T", 0), ("FA", "T", 1)] (some 2)).columns.length none
          = some 1) ∧
    (true = false → (TransformResult.mk [[some 1, some 2, some 1]] [[0, 1]]
        [("FA", "T", 0), ("FA", "T", 1)] (some 2)).bias_index = none) :=
  transform_shape exTableComplete false true
    (TransformResult.mk [[some 1, some 2, some 1]] [[0, 1]]
      [("FA", "T", 0), ("FA", "T", 1)] (some 2))
    (by decide) (by decide)

/-! ### The cross-product column codes and the group index -/

theorem getD_flatMap_const {α β : Type} (f : α → List β) (k : ℕ) (d : β)
    (dA : α) : ∀ (A : List α), (∀ a ∈ A, (f a).length = k) →
    ∀ j, j < A.length * k →
    (A.flatMap f).getD j d = (f (A.getD (j / k) dA)).getD (j % k) d := by
  intro A
  induction A with
  | nil => intro _ j hj; simp at hj
  | cons a A' ih =>
      intro hk j hj
      have hfa : (f a).length = k := hk a (by simp)
      have hk0 : 0 < k := by
        rcases Nat.eq_zero_or_pos k with rfl | h
        · simp at hj
        · exact h
      rw [List.flatMap_cons]
      by_cases hjk : j < k
      · rw [List.getD_append _ _ _ _ (by rw [hfa]; exact hjk)]
        rw [Nat.div_eq_of_lt hjk, Nat.mod_eq_of_lt hjk]
        rfl
      · push_neg at hjk
        rw [List.getD_append_right _ _ _ _ (by rw [hfa]; exact hjk)]
        rw [hfa]
        have hj' : j - k < A'.length * k := by
          rw [List.length_cons, Nat.succ_mul] at hj
          omega
        rw [ih (fun a' ha' => hk a' (by simp [ha'])) (j - k) hj']
        rw [Nat.div_eq_sub_div hk0 hjk, Nat.mod_eq_sub_mod hjk]
        rfl

theorem getD_range (n i : ℕ) (h : i < n) (d : ℕ) :
    (List.range n).getD i d = i := by
  rw [List.getD_eq_getElem _ _ (by simpa using h)]
  simp

theorem length_productCodes (nm nt nn : ℕ) :
    (productCodes nm nt nn).length = nm * (nt * nn) := by
  unfold productCodes
  have hinner : ∀ mi ∈ List.range nm,
      ((List.range nt).flatMap (fun ti => (List.range nn).map
        (fun ni => (mi, ti, ni)))).length = nt * nn := by
    intro mi _
    rw [length_flatMap_const _ _ nn (fun ti _ => by
      rw [List.length_map, List.length_range]), List.length_range]
  rw [length_flatMap_const _ _ (nt * nn) hinner, List.length_range]

theorem pos_right_of_mul_pos {a b : ℕ} (h : 0 < a * b) : 0 < b := by
  rcases Nat.eq_zero_or_pos b with rfl | hb
  · rw [Nat.mul_zero] at h
    exact absurd h (lt_irrefl 0)
  · exact hb

theorem pos_left_of_mul_pos {a b : ℕ} (h : 0 < a * b) : 0 < a := by
  rcases Nat.eq_zero_or_pos a with rfl | ha
  · rw [Nat.zero_mul] at h
    exact absurd h (lt_irrefl 0)
  · exact ha

theorem productCodes_getD (nm nt nn j : ℕ) (hj : j < nm * (nt * nn)) :
    (productCodes nm nt nn).getD j (0, 0, 0) =
      (j / (nt * nn), j % (nt * nn) / nn, j % (nt * nn) % nn) := by
  have hposN : 0 < nm * (nt * nn) := by omega
  have hntnn : 0 < nt * nn := pos_right_of_mul_pos hposN
  have hnn : 0 < nn := pos_right_of_mul_pos hntnn
  have hinner : ∀ mi ∈ List.range nm,
      ((List.range nt).flatMap (fun ti => (List.range nn).map
        (fun ni => (mi, ti, ni)))).length = nt * nn := by
    intro mi _
    rw [length_flatMap_const _ _ nn (fun ti _ => by
      rw [List.length_map, List.length_range]), List.length_range]
  unfold productCodes
  rw [getD_flatMap_const _ (nt * nn) _ 0 _ hinner j (by simpa using hj)]
  rw [getD_range nm (j / (nt * nn)) ((Nat.div_lt_iff_lt_mul hntnn).mpr hj) 0]
  have hr : j % (nt * nn) < nt * nn := Nat.mod_lt _ hntnn
  rw [getD_flatMap_const _ nn _ 0 _ (fun ti _ => by
    rw [List.length_map, List.length_range]) _ (by simpa using hr)]
  rw [getD_range nt _ ((Nat.div_lt_iff_lt_mul hnn).mpr hr) 0]
  rw [getD_map_range _ nn _ (Nat.mod_lt _ hnn) _]

theorem length_tableMembership (tbl : Table) :
    (tableMembership tbl).length = (tableMetrics tbl).length *
      ((tableTracts tbl).length * (tableNodes tbl).length) := by
  unfold tableMembership membershipOf
  rw [List.length_map, length_productCodes]

theorem tableMembership_getD (tbl : Table) (j : ℕ)
    (hj : j < (tableMetrics tbl).length *
      ((tableTracts tbl).length * (tableNodes tbl).length)) :
    (tableMembership tbl).getD j 0 =
      j / ((tableTracts tbl).length * (tableNodes tbl).length) *
        (tableTracts tbl).length +
      j % ((tableTracts tbl).length * (tableNodes tbl).length) /
        (tableNodes tbl).length := by
  unfold tableMembership membershipOf
  rw [getD_map_lt _ (0, 0, 0) 0 _ j (by rw [length_productCodes]; exact hj)]
  rw [productCodes_getD _ _ _ _ hj]

theorem colKeysOf_getD (tbl : Table) (j : ℕ)
    (hj : j < (tableMetrics tbl).length *
      ((tableTracts tbl).length * (tableNodes tbl).length)) :
    (colKeysOf tbl).getD j ("", "", 0) =
      ((tableMetrics tbl).getD
        (j / ((tableTracts tbl).length * (tableNodes tbl).length)) "",
       (tableTracts tbl).getD
        (j % ((tableTracts tbl).length * (tableNodes tbl).length) /
          (tableNodes tbl).length) "",
       (tableNodes tbl).getD
        (j % ((tableTracts tbl).length * (tableNodes tbl).length) %
          (tableNodes tbl).length) 0) := by
  have hposN : 0 < (tableMetrics tbl).length *
      ((tableTracts tbl).length * (tableNodes tbl).length) := by omega
  have hntnn : 0 < (tableTracts tbl).length * (tableNodes tbl).length :=
    pos_right_of_mul_pos hposN
  have hnn : 0 < (tableNodes tbl).length := pos_right_of_mul_pos hntnn
  have hinner : ∀ m ∈ tableMetrics tbl,
      ((tableTracts tbl).flatMap (fun t => (tableNodes tbl).map
        (fun n => (m, t, n)))).length =
        (tableTracts tbl).length * (tableNodes tbl).length := by
    intro m _
    exact length_flatMap_const _ _ _ (fun t _ => List.length_map _ _)
  unfold colKeysOf
  rw [getD_flatMap_const _ ((tableTracts tbl).length * (tableNodes tbl).length)
    _ "" _ hinner j (by simpa using hj)]
  have hr : j % ((tableTracts tbl).length * (tableNodes tbl).length) <
      (tableTracts tbl).length * (tableNodes tbl).length :=
    Nat.mod_lt _ hntnn
  rw [getD_flatMap_const _ (tableNodes tbl).length _ "" _ (fun t _ =>
    List.length_map _ _) _ (by simpa using hr)]
  rw [getD_map_lt _ 0 ("", "", 0) _ _ (Nat.mod_lt _ hnn)]

theorem memb_code_div (j nt nn : ℕ) (hnn : 0 < nn) :
    j / (nt * nn) * nt + j % (nt * nn) / nn = j / nn := by
  conv_rhs => rw [← Nat.div_add_mod j (nt * nn)]
  rw [show nt * nn * (j / (nt * nn)) = nn * (nt * (j / (nt * nn))) by ring]
  rw [Nat.mul_add_div hnn]
  rw [Nat.mul_comm (j / (nt * nn)) nt]

theorem code_inj {a b c d nt : ℕ} (hb : b < nt) (hd : d < nt)
    (h : a * nt + b = c * nt + d) : a = c ∧ b = d := by
  have hnt : 0 < nt := by omega
  have ha : (a * nt + b) / nt = a := by
    rw [Nat.mul_comm a nt, Nat.mul_add_div hnt, Nat.div_eq_of_lt hb]
    omega
  have hc : (c * nt + d) / nt = c := by
    rw [Nat.mul_comm c nt, Nat.mul_add_div hnt, Nat.div_eq_of_lt hd]
    omega
  have hbm : (a * nt + b) % nt = b := by
    rw [Nat.mul_comm a nt, Nat.mul_add_mod, Nat.mod_eq_of_lt hb]
  have hdm : (c * nt + d) % nt = d := by
    rw [Nat.mul_comm c nt, Nat.mul_add_mod, Nat.mod_eq_of_lt hd]
  constructor
  · rw [← ha, ← hc, h]
  · rw [← hbm, ← hdm, h]

theorem getD_inj_of_nodup {α : Type} {l : List α} (h : l.Nodup)
    (d : α) {i j : ℕ} (hi : i < l.length) (hj : j < l.length) :
    (l.getD i d = l.getD j d) ↔ i = j := by
  rw [List.getD_eq_getElem _ _ hi, List.getD_eq_getElem _ _ hj]
  exact h.getElem_inj_iff

theorem nodup_tableMetrics (tbl : Table) : (tableMetrics tbl).Nodup := by
  unfold tableMetrics
  exact nodup_sortedLevel _

theorem nodup_tableTracts (tbl : Table) : (tableTracts tbl).Nodup := by
  unfold tableTracts
  exact nodup_sortedLevel _

theorem mem_uniqueSorted {x : ℕ} {l : List ℕ} :
    x ∈ uniqueSorted l ↔ x ∈ l := by
  unfold uniqueSorted
  rw [(List.perm_insertionSort _ _).mem_iff, List.mem_dedup]

theorem nodup_uniqueSorted (l : List ℕ) : (uniqueSorted l).Nodup := by
  unfold uniqueSorted
  rw [(List.perm_insertionSort _ _).nodup_iff]
  exact List.nodup_dedup _

theorem pairwise_lt_uniqueSorted (l : List ℕ) :
    List.Pairwise (· < ·) (uniqueSorted l) :=
  ((List.sorted_insertionSort _ _).and (nodup_uniqueSorted l)).imp
    (fun h => lt_of_le_of_ne h.1 h.2)

theorem getD_mem_of_lt {α : Type} (l : List α) (i : ℕ) (h : i < l.length)
    (d : α) : l.getD i d ∈ l := by
  rw [List.getD_eq_getElem _ _ h]
  exact List.getElem_mem h

/-- C6: for every successful build, the group index is a partition of the
non-bias column indices — every column index lies in exactly one group —
with each group the set of columns sharing one (metric, tractID) pair,
each group contiguous in column order, and the group list strictly ordered
by the integer membership code `metric-rank * tract-count + tract-rank`
(`tableMembership`). -/
theorem transform_groups_partition (tbl : Table) (e b : Bool)
    (res : TransformResult) (hT : transform tbl e b = some res) :
    (∀ j, j < res.columns.length →
      res.groups.countP (fun g => decide (j ∈ g)) = 1) ∧
    (∀ g ∈ res.groups, ∀ i ∈ g, ∀ j, j < res.columns.length →
      (j ∈ g ↔
        ((res.columns.getD i ("", "", 0)).1 =
            (res.columns.getD j ("", "", 0)).1 ∧
         (res.columns.getD i ("", "", 0)).2.1 =
            (res.columns.getD j ("", "", 0)).2.1))) ∧
    (∀ g ∈ res.groups, ∀ i j k, i ∈ g → k ∈ g → i ≤ j → j ≤ k → j ∈ g) ∧
    List.Pairwise (fun g g' => ∀ i ∈ g, ∀ j ∈ g',
      (tableMembership tbl).getD i 0 < (tableMembership tbl).getD j 0)
      res.groups := by
  obtain ⟨hcols, hgroups, -, -⟩ := transform_fields hT
  rw [hcols, hgroups]
  have hN := length_colKeysOf tbl
  have hM := length_tableMembership tbl
  have hmemfg : ∀ (gid j : ℕ),
      (j ∈ (List.range (tableMembership tbl).length).filter
        (fun j' => (tableMembership tbl).getD j' 0 = gid)) ↔
      (j < (tableMetrics tbl).length * ((tableTracts tbl).length *
        (tableNodes tbl).length) ∧ (tableMembership tbl).getD j 0 = gid) := by
    intro gid j
    rw [List.mem_filter, List.mem_range, hM]
    simp
  refine ⟨?_, ?_, ?_, ?_⟩
  · -- every column index lies in exactly one group
    intro j hj
    rw [hN] at hj
    unfold groupsOf
    rw [List.countP_map]
    have hjlen : j < (tableMembership tbl).length := by
      rw [hM]
      exact hj
    have hmem : (tableMembership tbl).getD j 0 ∈
        uniqueSorted (tableMembership tbl) :=
      mem_uniqueSorted.mpr (getD_mem_of_lt _ _ hjlen 0)
    have hcongr : List.countP ((fun g => decide (j ∈ g)) ∘ (fun gid =>
        (List.range (tableMembership tbl).length).filter
          (fun j' => (tableMembership tbl).getD j' 0 = gid)))
        (uniqueSorted (tableMembership tbl))
      = List.countP (fun gid => gid == (tableMembership tbl).getD j 0)
        (uniqueSorted (tableMembership tbl)) := by
      refine List.countP_congr ?_
      intro gid _
      constructor
      · intro hpc
        have hin := of_decide_eq_true hpc
        have h2 := (hmemfg gid j).mp hin
        exact beq_iff_eq.mpr h2.2.symm
      · intro hpc
        have hgid : gid = (tableMembership tbl).getD j 0 := beq_iff_eq.mp hpc
        exact decide_eq_true ((hmemfg gid j).mpr ⟨hj, hgid.symm⟩)
    rw [hcongr, ← List.count_eq_countP]
    exact List.count_eq_one_of_mem (nodup_uniqueSorted _) hmem
  · -- each group is the set of columns sharing one (metric, tractID) pair
    intro g hg i hi j hj
    rw [hN] at hj
    unfold groupsOf at hg
    obtain ⟨gid, hgid, rfl⟩ := List.mem_map.mp hg
    obtain ⟨hiN, hmi⟩ := (hmemfg gid i).mp hi
    have hposN : 0 < (tableMetrics tbl).length *
        ((tableTracts tbl).length * (tableNodes tbl).length) := by omega
    have hntnn : 0 < (tableTracts tbl).length * (tableNodes tbl).length :=
      pos_right_of_mul_pos hposN
    have hnm : 0 < (tableMetrics tbl).length := pos_left_of_mul_pos hposN
    have hnt : 0 < (tableTracts tbl).length := pos_left_of_mul_pos hntnn
    have hnn : 0 < (tableNodes tbl).length := pos_right_of_mul_pos hntnn
    have hmiI : i / ((tableTracts tbl).length * (tableNodes tbl).length) <
        (tableMetrics tbl).length := (Nat.div_lt_iff_lt_mul hntnn).mpr hiN
    have hmiJ : j / ((tableTracts tbl).length * (tableNodes tbl).length) <
        (tableMetrics tbl).length := (Nat.div_lt_iff_lt_mul hntnn).mpr hj
    have htiI : i % ((tableTracts tbl).length * (tableNodes tbl).length) /
        (tableNodes tbl).length < (tableTracts tbl).length :=
      (Nat.div_lt_iff_lt_mul hnn).mpr (Nat.mod_lt _ hntnn)
    have htiJ : j % ((tableTracts tbl).length * (tableNodes tbl).length) /
        (tableNodes tbl).length < (tableTracts tbl).length :=
      (Nat.div_lt_iff_lt_mul hnn).mpr (Nat.mod_lt _ hntnn)
    rw [hmemfg gid j]
    rw [colKeysOf_getD tbl i hiN, colKeysOf_getD tbl j hj]
    rw [tableMembership_getD tbl i hiN] at hmi
    constructor
    · rintro ⟨-, hmj⟩
      rw [tableMembership_getD tbl j hj] at hmj
      obtain ⟨hmi_eq, hti_eq⟩ := code_inj htiI htiJ (hmi.trans hmj.symm)
      exact ⟨by rw [hmi_eq], by rw [hti_eq]⟩
    · rintro ⟨hmeq, hteq⟩
      refine ⟨hj, ?_⟩
      rw [tableMembership_getD tbl j hj]
      have hmi_eq := (getD_inj_of_nodup (nodup_tableMetrics tbl) "" hmiI
        hmiJ).mp hmeq
      have hti_eq := (getD_inj_of_nodup (nodup_tableTracts tbl) "" htiI
        htiJ).mp hteq
      rw [← hmi_eq, ← hti_eq]
      exact hmi
  · -- contiguity
    intro g hg i j k hi hk hij hjk
    unfold groupsOf at hg
    obtain ⟨gid, hgid, rfl⟩ := List.mem_map.mp hg
    obtain ⟨hiN, hmi⟩ := (hmemfg gid i).mp hi
    obtain ⟨hkN, hmk⟩ := (hmemfg gid k).mp hk
    have hjN : j < (tableMetrics tbl).length *
        ((tableTracts tbl).length * (tableNodes tbl).length) :=
      lt_of_le_of_lt hjk hkN
    have hposN : 0 < (tableMetrics tbl).length *
        ((tableTracts tbl).length * (tableNodes tbl).length) := by omega
    have hnn : 0 < (tableNodes tbl).length :=
      pos_right_of_mul_pos (pos_right_of_mul_pos hposN)
    have hfi : (tableMembership tbl).getD i 0 = i / (tableNodes tbl).length := by
      rw [tableMembership_getD tbl i hiN]
      exact memb_code_div i _ _ hnn
    have hfj : (tableMembership tbl).getD j 0 = j / (tableNodes tbl).length := by
      rw [tableMembership_getD tbl j hjN]
      exact memb_code_div j _ _ hnn
    have hfk : (tableMembership tbl).getD k 0 = k / (tableNodes tbl).length := by
      rw [tableMembership_getD tbl k hkN]
      exact memb_code_div k _ _ hnn
    rw [hmemfg gid j]
    refine ⟨hjN, ?_⟩
    rw [hfj]
    rw [hfi] at hmi
    rw [hfk] at hmk
    have h1 : i / (tableNodes tbl).length ≤ j / (tableNodes tbl).length :=
      Nat.div_le_div_right hij
    have h2 : j / (tableNodes tbl).length ≤ k / (tableNodes tbl).length :=
      Nat.div_le_div_right hjk
    have h2' : j / (tableNodes tbl).length ≤ gid := by
      rw [← hmk]
      exact h2
    have h1' : gid ≤ j / (tableNodes tbl).length := by
      rw [← hmi]
      exact h1
    exact le_antisymm h2' h1'
  · -- groups strictly ordered by the membership code
    unfold groupsOf
    rw [List.pairwise_map]
    refine List.Pairwise.imp ?_ (pairwise_lt_uniqueSorted (tableMembership tbl))
    intro gid gid' hlt i hi j hj
    obtain ⟨-, hmi⟩ := (hmemfg gid i).mp hi
    obtain ⟨-, hmj⟩ := (hmemfg gid' j).mp hj
    rw [hmi, hmj]
    exact hlt

/-- C6 (witness): the statement applied to `exTableSparse`, whose build has
4 columns and 2 groups. -/
theorem transform_groups_partition_witness :
    (∀ j, j < (TransformResult.mk [[some 1, some 1, some 2, some 2, some 1]]
        [[0, 1], [2, 3]]
        [("FA", "A", 0), ("FA", "A", 1), ("FA", "B", 0), ("FA", "B", 1)]
        (some 4)).columns.length →
      (TransformResult.mk [[some 1, some 1, some 2, some 2, some 1]]
        [[0, 1], [2, 3]]
        [("FA", "A", 0), ("FA", "A", 1), ("FA", "B", 0), ("FA", "B", 1)]
        (some 4)).groups.countP (fun g => decide (j ∈ g)) = 1) ∧
    (∀ g ∈ (TransformResult.mk [[some 1, some 1, some 2, some 2, some 1]]
        [[0, 1], [2, 3]]
        [("FA", "A", 0), ("FA", "A", 1), ("FA", "B", 0), ("FA", "B", 1)]
        (some 4)).groups, ∀ i ∈ g, ∀ j,
      j < (TransformResult.mk [[some 1, some 1, some 2, some 2, some 1]]
        [[0, 1], [2, 3]]
        [("FA", "A", 0), ("FA", "A", 1), ("FA", "B", 0), ("FA", "B", 1)]
        (some 4)).columns.length →
      (j ∈ g ↔
        (((TransformResult.mk [[some 1, some 1, some 2, some 2, some 1]]
            [[0, 1], [2, 3]]
            [("FA", "A", 0), ("FA", "A", 1), ("FA", "B", 0), ("FA", "B", 1)]
            (some 4)).columns.getD i ("", "", 0)).1 =
          ((TransformResult.mk [[some 1, some 1, some 2, some 2, some 1]]
            [[0, 1], [2, 3]]
            [("FA", "A", 0), ("FA", "A", 1), ("FA", "B", 0), ("FA", "B", 1)]
            (some 4)).columns.getD j ("", "", 0)).1 ∧
         ((TransformResult.mk [[some 1, some 1, some 2, some 2, some 1]]
            [[0, 1], [2, 3]]
            [("FA", "A", 0), ("FA", "A", 1), ("FA", "B", 0), ("FA", "B", 1)]
            (some 4)).columns.getD i ("", "", 0)).2.1 =
          ((TransformResult.mk [[some 1, some 1, some 2, some 2, some 1]]
            [[0, 1], [2, 3]]
            [("FA", "A", 0), ("FA", "A", 1), ("FA", "B", 0), ("FA", "B", 1)]
            (some 4)).columns.getD j ("", "", 0)).2.1))) ∧
    (∀ g ∈ (TransformResult.mk [[some 1, some 1, some 2, some 2, some 1]]
        [[0, 1], [2, 3]]
        [("FA", "A", 0), ("FA", "A", 1), ("FA", "B", 0), ("FA", "B", 1)]
        (some 4)).groups, ∀ i j k, i ∈ g → k ∈ g → i ≤ j → j ≤ k → j ∈ g) ∧
    List.Pairwise (fun g g' => ∀ i ∈ g, ∀ j ∈ g',
      (tableMembership exTableSparse).getD i 0 <
        (tableMembership exTableSparse).getD j 0)
      (TransformResult.mk [[some 1, some 1, some 2, some 2, some 1]]
        [[0, 1], [2, 3]]
        [("FA", "A", 0), ("FA", "A", 1), ("FA", "B", 0), ("FA", "B", 1)]
        (some 4)).groups :=
  transform_groups_partition exTableSparse false true
    (TransformResult.mk [[some 1, some 1, some 2, some 2, some 1]]
      [[0, 1], [2, 3]]
      [("FA", "A", 0), ("FA", "A", 1), ("FA", "B", 0), ("FA", "B", 1)]
      (some 4))
    (by decide)

end AFQ
